import Mathlib

/-! Verification of the AAER PDF extractor core: a shallow embedding of
`src/nlp_engine.py` (temporal-interval inference) and `src/pdf_miner.py`
(bold-span indexing and section/summary location), together with theorems
about the embedded functions.

Conventions of the embedding:
* Python `int` is `ℤ`, Python `float` arithmetic on years/timestamps is
  modelled exactly with `ℚ` (the quantities involved are exact in both).
* Python `dict` (insertion ordered) is an association list whose new keys
  are appended at the end.
* Code that can raise (`KeyError` / `IndexError`) returns an `Option`,
  `none` standing for the raised exception.
-/

namespace AAER

/-! Section: generic string / list helpers (Python primitives). -/

/-- Prefix test: `beginsWith p l` holds when `p` is a prefix of `l`
(helper for Python's `in`). -/
def beginsWith : List Char → List Char → Bool
  | [], _ => true
  | _ :: _, [] => false
  | a :: s, b :: t => a == b && beginsWith s t

/-- Containment test: `occursIn p l` holds when `p` occurs as a
contiguous sublist of `l`
(Python's `p in l` for strings; the empty needle always occurs). -/
def occursIn (needle : List Char) : List Char → Bool
  | [] => needle.isEmpty
  | c :: rest => beginsWith needle (c :: rest) || occursIn needle rest

/-- Python's substring test `needle in haystack`. -/
def appearsIn (needle haystack : String) : Bool :=
  occursIn needle.data haystack.data

/-- Helper for `str.find`: index of the first occurrence, `-1` if absent. -/
def findFrom (needle : List Char) : List Char → ℤ
  | [] => if needle.isEmpty then 0 else -1
  | c :: rest =>
    if beginsWith needle (c :: rest) then 0
    else
      let r := findFrom needle rest
      if r == -1 then -1 else r + 1

/-- Python's `str.lower()`, over the character list (the inputs are ASCII;
`String.toLower` itself is not kernel-reducible). -/
def pyLower (s : String) : String := String.mk (s.data.map Char.toLower)

/-- Python's `text.lower().find(pat)` (the callers search for a lowercase
literal in the lowercased text). -/
def pyFind (text pat : String) : ℤ :=
  findFrom (pyLower pat).data (pyLower text).data

/-- Python's `int(...)` on the all-digit strings admitted by the `shape_`
guards (where the guards do not hold the source raises and the value is
irrelevant). -/
def pyInt (s : String) : ℤ :=
  s.data.foldl (fun n c => n * 10 + ((c.toNat : ℤ) - ('0'.toNat : ℤ))) 0

/-- Python's `text.split(".")[0]`: the prefix before the first period. -/
def beforeDot (s : String) : String :=
  String.mk (s.data.takeWhile (fun c => c != '.'))

/-- Resolve a (possibly negative) Python index against a length. -/
def pyIndex (len : ℕ) (i : ℤ) : ℤ := if i < 0 then i + len else i

/-- Python's slice `s[a:b]` (clamping, negative indices wrap). -/
def pySlice (s : String) (a b : ℤ) : String :=
  let n := s.length
  let a' := (max 0 (min (pyIndex n a) (n : ℤ))).toNat
  let b' := (max 0 (min (pyIndex n b) (n : ℤ))).toNat
  String.mk ((s.data.drop a').take (b' - a'))

/-- Python's slice `s[a:]`. -/
def pySliceFrom (s : String) (a : ℤ) : String :=
  let n := s.length
  let a' := (max 0 (min (pyIndex n a) (n : ℤ))).toNat
  String.mk (s.data.drop a')

/-- Python's `str.strip()` (whitespace on both ends). -/
def pyStrip (s : String) : String :=
  String.mk (((s.data.dropWhile Char.isWhitespace).reverse.dropWhile
      Char.isWhitespace).reverse)

/-- Python's banker's rounding `round(q)`: nearest integer, ties to even. -/
def bankersRound (q : ℚ) : ℤ :=
  let f := ⌊q⌋
  let r := q - f
  if r < 1/2 then f
  else if 1/2 < r then f + 1
  else if f % 2 = 0 then f else f + 1

/-- Append `v` to the list stored under `k`, creating the key at the end in
insertion order if absent (Python dict-of-lists append). -/
def addAssoc [BEq κ] : List (κ × List α) → κ → α → List (κ × List α)
  | [], k, v => [(k, [v])]
  | (k', vs) :: rest, k, v =>
    if k' == k then (k', vs ++ [v]) :: rest else (k', vs) :: addAssoc rest k v

/-- Python's `if k not in d: d[k] = []`. -/
def ensureKey [BEq κ] (l : List (κ × List α)) (k : κ) : List (κ × List α) :=
  match List.lookup k l with
  | some _ => l
  | none => l ++ [(k, [])]

/-! Section: static configuration tables.

The module `nlp_info` is imported by `nlp_engine.py` but its source is not
part of the repository snapshot, so its three tables are modelled from the
spec (§3, §6). -/

/-- Modelled from the spec: `monthNameTable` of the missing `nlp_info`
module — "month word → 1–12". -/
def month_names : List (String × ℤ) :=
  [("january", 1), ("february", 2), ("march", 3), ("april", 4),
   ("may", 5), ("june", 6), ("july", 7), ("august", 8),
   ("september", 9), ("october", 10), ("november", 11), ("december", 12)]

/-- Modelled from the spec: `quarterToMonthTable` of the missing `nlp_info`
module — "ordinal word → representative month"; the representative months
are one concrete choice, the claims do not depend on the exact values. -/
def quarter_to_month : List (String × ℤ) :=
  [("first", 2), ("second", 5), ("third", 8), ("fourth", 11)]

/-- Modelled from the spec: `misreportingLemmas` of the missing `nlp_info`
module — "set of verb lemmas whose numeric-modifier year-children count as
high-confidence year mentions, e.g. `restate`, `file`". -/
def misreporting_terms : List String := ["restate", "file"]

/-! Section: tokens (`spacy` dependency-parse nodes, spec section 6).

A token exposes its surface text, lemma, shape code, dependency relation,
the attributes of its head (and its head's head) that `parse_text` reads,
and its dependent children. -/

inductive Token where
  | mk (text lemma_ shape_ dep_ headText headLemma headShape headHeadText :
      String) (children : List Token)

def Token.text : Token → String
  | .mk t _ _ _ _ _ _ _ _ => t

def Token.lemma_ : Token → String
  | .mk _ l _ _ _ _ _ _ _ => l

def Token.shape_ : Token → String
  | .mk _ _ s _ _ _ _ _ _ => s

def Token.dep_ : Token → String
  | .mk _ _ _ d _ _ _ _ _ => d

def Token.headText : Token → String
  | .mk _ _ _ _ h _ _ _ _ => h

def Token.headLemma : Token → String
  | .mk _ _ _ _ _ h _ _ _ => h

def Token.headShape : Token → String
  | .mk _ _ _ _ _ _ h _ _ => h

def Token.headHeadText : Token → String
  | .mk _ _ _ _ _ _ _ h _ => h

def Token.children : Token → List Token
  | .mk _ _ _ _ _ _ _ _ c => c

/-! Section: `nlp_engine.find_year`. -/

/-- Inner helper `get_year_from_child` of `find_year`. -/
def get_year_from_child (child : Token) : Option ℤ :=
  if child.dep_ == "pobj" || child.dep_ == "nummod" then
    if child.shape_ == "dddd" then some (pyInt child.text)
    else if child.shape_ == "dddd.d" || child.shape_ == "dddd.dd" then
      some (pyInt (beforeDot child.text))
    else none
  else none

/-- Source `find_year`: scan the quarter token's grandchildren (and, under a
`year`/fiscal-year grandchild, its children); each qualifying value
overwrites the previous one. -/
def find_year (token : Token) : Option ℤ :=
  token.children.foldl (fun year c1 =>
    c1.children.foldl (fun year c2 =>
      if pyLower c2.lemma_ == "year" || appearsIn (pyLower c2.lemma_) "fys" then
        c2.children.foldl (fun year c3 =>
          match get_year_from_child c3 with
          | some t => some t
          | none => year) year
      else
        match get_year_from_child c2 with
        | some t => some t
        | none => year) year) none

/-- Source `find_quarters`: returns `(location, quantity)`. -/
def find_quarters (token : Token) : Option String × Option Token :=
  let ql := token.children.foldl
    (fun (acc : Option Token × Option String) child =>
      if child.dep_ == "nummod" then (some child, acc.2)
      else if child.dep_ == "amod" then (acc.1, some child.text)
      else acc) (none, none)
  let location := match ql.1 with
    | none => ql.2
    | some q => q.children.foldl
        (fun loc child => if child.dep_ == "amod" then some child.text else loc)
        ql.2
  (location, ql.1)

/-! Section: `nlp_engine.find_interval`. -/

structure QuarterMention where
  location : Option String
  quantity : Option Token

structure Interval where
  year_start : ℤ
  month_start : ℤ
  year_end : ℤ
  month_end : ℤ
  deriving DecidableEq

/-- Python's `np.mean` over the list of observed years. -/
def sampleMean (ys : List ℤ) : ℚ :=
  (ys.map (fun (y : ℤ) => (y : ℚ))).sum / (ys.length : ℚ)

/-- Python's `np.std(ys) ** 2` (population variance, `ddof = 0`). -/
def sampleVariance (ys : List ℤ) : ℚ :=
  ((ys.map (fun (y : ℤ) => ((y : ℚ) - sampleMean ys) ^ 2)).sum) / (ys.length : ℚ)

/-- Acceptance test `lower < time_stamp < upper` of `find_interval`.
With more than one year the bounds are `mean ∓ 2·std`; since
`std = √variance` is irrational the test is stated in the equivalent
square-free form `(ts − mean)² < 4·variance` (see `twoSigma_iff`).
Otherwise the sentinel bounds `lower = 0`, `upper = 100000` are used. -/
def accepts (years : List ℤ) (ts : ℚ) : Bool :=
  if 1 < years.length then
    decide ((ts - sampleMean years) ^ 2 < 4 * sampleVariance years)
  else
    decide (0 < ts ∧ ts < 100000)

/-- Lookup `quarter_to_month[quarter["location"]]`: a `None` location (or an
unknown ordinal) raises `KeyError`, modelled as `none`. -/
def qmLookup : Option String → Option ℤ
  | none => none
  | some s => List.lookup s quarter_to_month

/-- Inner loop of the quarter-merging step of `find_interval`: append the
representative month of each quarter mention to `months[year]`. -/
def addQuarterMonths (acc : List (ℤ × List ℤ)) (y : ℤ)
    (ms : List QuarterMention) : Option (List (ℤ × List ℤ)) :=
  ms.foldlM (fun acc2 q =>
    match qmLookup q.location with
    | none => none
    | some m => some (addAssoc acc2 y m)) (ensureKey acc y)

/-- The quarter-merging loop of `find_interval` (`for year in quarters: ...`). -/
def mergeQuarters (quarters : List (ℤ × List QuarterMention))
    (months : List (ℤ × List ℤ)) : Option (List (ℤ × List ℤ)) :=
  quarters.foldlM (fun acc p => addQuarterMonths acc p.1 p.2) months

/-- The continuous timestamps `year + month / 12` of all `(year, month)`
pairs, in iteration order. -/
def timestamps (months : List (ℤ × List ℤ)) : List ℚ :=
  months.flatMap (fun p => p.2.map (fun (m : ℤ) => (p.1 : ℚ) + (m : ℚ) / 12))

/-- The accepted timestamps, in iteration order. -/
def acceptedOf (years : List ℤ) (merged : List (ℤ × List ℤ)) : List ℚ :=
  (timestamps merged).filter (accepts years)

/-- Python's `round((x - x // 1) * 12)`: the reported month of a timestamp. -/
def monthPart (q : ℚ) : ℤ := bankersRound ((q - ⌊q⌋) * 12)

/-- The running minimum `if time_stamp < lower_in_range: ...` of the
source's accumulation loop. -/
def runMin (init : ℚ) (l : List ℚ) : ℚ :=
  l.foldl (fun a ts => if ts < a then ts else a) init

/-- The running maximum `if time_stamp > upper_in_range: ...` of the
source's accumulation loop. -/
def runMax (init : ℚ) (l : List ℚ) : ℚ :=
  l.foldl (fun a ts => if ts > a then ts else a) init

/-- Source `find_interval` of `nlp_engine.py`. The running minimum/maximum update
of the source loop is expressed as two folds over the accepted timestamps;
`int(x // 1)` is `⌊x⌋`. `none` models the `KeyError` raised by the
quarter-to-month lookup. -/
def find_interval (years : List ℤ) (quarters : List (ℤ × List QuarterMention))
    (months : List (ℤ × List ℤ)) : Option Interval :=
  match mergeQuarters quarters months with
  | none => none
  | some merged =>
    let lower_in_range := runMin 100000 (acceptedOf years merged)
    let upper_in_range := runMax 0 (acceptedOf years merged)
    some { year_start := ⌊lower_in_range⌋
           month_start := monthPart lower_in_range
           year_end := ⌊upper_in_range⌋
           month_end := monthPart upper_in_range }

/-! Section: `nlp_engine.parse_text`. -/

/-- The body of `parse_text`'s token loop: collect year, month and quarter
mentions from one token. -/
def parse_token
    (acc : List ℤ × List (ℤ × List QuarterMention) × List (ℤ × List ℤ))
    (token : Token) :
    List ℤ × List (ℤ × List QuarterMention) × List (ℤ × List ℤ) :=
  let (years, quarters, months) := acc
  let (years, months) :=
    if token.shape_ == "dddd" then
      let years :=
        if (token.dep_ == "nummod"
              && misreporting_terms.contains (pyLower token.headLemma))
            || appearsIn (pyLower token.headText) "fys"
            || (token.headShape == "dddd"
              && appearsIn (pyLower token.headHeadText) "fys")
            || token.dep_ == "pobj" then
          years ++ [pyInt token.text]
        else years
      let months :=
        if token.dep_ == "nummod" then
          match List.lookup (pyLower token.headText) month_names with
          | some m => addAssoc months (pyInt token.text) m
          | none => months
        else months
      (years, months)
    else if token.shape_ == "dddd.d" || token.shape_ == "dddd.dd" then
      (if token.dep_ == "pobj" then
        years ++ [pyInt (beforeDot token.text)]
      else years, months)
    else (years, months)
  let quarters :=
    if token.lemma_ == "quarter" then
      match find_year token with
      | some y =>
        let lq := find_quarters token
        addAssoc quarters y { location := lq.1, quantity := lq.2 }
      | none => quarters
    else quarters
  (years, quarters, months)

/-- Source `parse_text` of `nlp_engine.py`: the externally parsed token sequence
is the input (the spaCy engine is an external collaborator). -/
def parse_text (doc : List Token) : Option Interval :=
  let st := doc.foldl parse_token ([], [], [])
  find_interval st.1 st.2.1 st.2.2

/-! Section: `pdf_miner.extract_pdf_from_url` (BoldSpanIndexer).

The character stream extracted by `pdfplumber` is the input: one character
per `char` record, `bold` standing for `"bold" in char["fontname"].lower()`.
-/

structure PChar where
  text : Char
  bold : Bool
  deriving DecidableEq

/-- The punctuation/digit break set `".,1234567890'" + '"'`. -/
def isBreakChar (c : Char) : Bool :=
  (".,1234567890'\"".data).contains c

/-- The bold-span index: normalized bold word → recorded start offsets, in
insertion order. -/
abbrev BoldIndex := List (String × List ℕ)

structure ExtractState where
  all_text : List Char
  bold_words : BoldIndex
  bold_word : String
  start : ℕ
  index : ℕ

/-- The flush step of the character loop: record the accumulated bold word
at the cursor (`index - start > 0` is `start < index`, both being ints in
the source), appending a period to Roman-numeral-like section tokens. -/
def flushWord (st : ExtractState) : BoldIndex :=
  if st.start < st.index ∧ st.bold_word ≠ "" then
    let key := if appearsIn st.bold_word "xxiiixxivxxviiixxx" then
        st.bold_word ++ "." else st.bold_word
    addAssoc st.bold_words key st.start
  else st.bold_words

/-- One character of the `extract_pdf_from_url` loop. -/
def stepChar (st : ExtractState) (c : PChar) : ExtractState :=
  let text' := st.all_text ++ [c.text]
  if c.bold || c.text.isWhitespace then
    if c.text.isWhitespace || isBreakChar c.text then
      { all_text := text'
        bold_words := flushWord st
        bold_word := ""
        start := st.index + 1
        index := st.index + 1 }
    else
      { st with
        all_text := text'
        bold_word := st.bold_word.push c.text.toLower
        index := st.index + 1 }
  else
    { st with
      all_text := text'
      start := st.index + 1
      index := st.index + 1 }

/-- One page: `bold_word` is reset, `start`/`index` persist across pages. -/
def runPage (st : ExtractState) (page : List PChar) : ExtractState :=
  page.foldl stepChar { st with bold_word := "" }

/-- Source `extract_pdf_from_url` of `pdf_miner.py`: full text and bold-span
index of a page-ordered character stream. -/
def extract_pdf_from_url (pages : List (List PChar)) :
    List Char × BoldIndex :=
  let st := pages.foldl runPage ⟨[], [], "", 0, 0⟩
  (st.all_text, st.bold_words)

/-! Section: `pdf_miner.get_section_portion` (SectionLocator). -/

/-- Source `get_section_portion`: slice between the first offsets of the two
anchors; a missing anchor key is a `KeyError` (`none`).  A present key with
an empty offset list would be an `IndexError` in the source; produced
indexes never store empty lists, and it is modelled as `none` as well. -/
def get_section_portion (text : String) (bold_words : BoldIndex)
    (start_sequence end_sequence : String) : Option (String × ℕ × ℤ) :=
  match List.lookup (pyLower start_sequence) bold_words,
        List.lookup (pyLower end_sequence) bold_words with
  | some (a :: _), some (b :: _) =>
    some (pyStrip (pySlice text a ((b : ℤ) - 1)), a, (b : ℤ) - 1)
  | _, _ => none

/-! Section: `pdf_miner.get_summary_portion` (SummaryLocator). -/

/-- Condition `not (key not in bold_words or bold_words[key][-1] < sum_start)`:
the end anchor qualifies if present with last offset `≥ sum_start`.
(The source would raise `IndexError` on an empty offset list; produced
indexes never store one, and an empty list is treated as not qualifying.) -/
def lastQualifies (bold_words : BoldIndex) (key : String) (s : ℤ) : Bool :=
  match List.lookup key bold_words with
  | none => false
  | some offs =>
    match offs.getLast? with
    | none => false
    | some o => decide (s ≤ (o : ℤ))

/-- The `while sum_end_index < sum_start_index` loop walking the end
anchor's offsets; running past the list is an `IndexError` (`none`). -/
def resolveLoop (s : ℤ) : List ℕ → ℤ → Option ℤ
  | [], cur => if cur < s then none else some cur
  | o :: rest, cur =>
    if cur < s then resolveLoop s rest ((o : ℤ) - 1) else some cur

/-- All recorded offsets of the index, in iteration order. -/
def allOffsets (bold_words : BoldIndex) : List ℕ :=
  bold_words.flatMap (fun p => p.2)

/-- One step of the fallback scan:
`if sum_end_index > index > sum_start_index: sum_end_index = index`. -/
def scanStep (s acc : ℤ) (o : ℕ) : ℤ :=
  if acc > (o : ℤ) ∧ (o : ℤ) > s then (o : ℤ) else acc

/-- The fallback scan over every bold-span offset: smallest offset in
`(sum_start, sum_start + 10000000)`, else the sentinel
`sum_start + 10000000`. -/
def scanMin (bold_words : BoldIndex) (s : ℤ) : ℤ :=
  bold_words.foldl (fun acc kv => kv.2.foldl (scanStep s) acc)
    (s + 10000000)

/-- The summary-end resolution of `get_summary_portion` (the anchor test,
its pluralized retry, the bold-offset scan, and the `while` loop). -/
def resolve_summary_end (bold_words : BoldIndex) (end_sequence : String)
    (s : ℤ) : Option ℤ :=
  let key := if lastQualifies bold_words (pyLower end_sequence) s then
      pyLower end_sequence else pyLower end_sequence ++ "s"
  if lastQualifies bold_words key s then
    resolveLoop s ((List.lookup key bold_words).getD []) 0
  else
    some (scanMin bold_words s)

/-- The summary-start resolution: the start anchor's first offset if the
key exists, otherwise a literal substring search (which yields `-1` when
the marker phrase is absent). -/
def sum_start_resolve (text : String) (bold_words : BoldIndex)
    (start_sequence : String) : Option ℤ :=
  match List.lookup (pyLower start_sequence) bold_words with
  | some offs => offs.head?.map (fun o => (o : ℤ))
  | none => some (pyFind text "on the basis of this order and")

/-- Source `get_summary_portion` of `pdf_miner.py`, where `none` models a raised
`IndexError`; the degraded branch returns the text after the section's end
with the `-1` sentinel end offset (its warning is printed, not returned). -/
def get_summary_portion (text : String) (bold_words : BoldIndex)
    (start_sequence end_sequence : String) (section_start section_end : ℤ) :
    Option (String × ℤ × ℤ) :=
  match sum_start_resolve text bold_words start_sequence with
  | none => none
  | some s =>
    match resolve_summary_end bold_words end_sequence s with
    | none => none
    | some e =>
      if s < section_start then
        some (pySliceFrom text (section_end + 1), section_end + 1, -1)
      else
        some (pySlice text s e, s, e)

/-! Section: derived definitions used by the verification statements. -/

/-- Every quantity flowing through the accumulation loop is an integer
number of twelfths. -/
def onGrid (q : ℚ) : Prop := ∃ z : ℤ, q = (z : ℚ) / 12

/-- The value left by an overwriting loop: the last element if any,
otherwise the incoming accumulator. -/
def lastOr (l : List ℤ) (a : Option ℤ) : Option ℤ :=
  match l.getLast? with
  | some v => some v
  | none => a

/-- The year candidates produced under one grandchild of the quarter
token: under a `year`/fiscal-year grandchild its children are examined,
otherwise the grandchild itself. -/
def yearBranchCandidates (c2 : Token) : List ℤ :=
  if pyLower c2.lemma_ == "year" || appearsIn (pyLower c2.lemma_) "fys" then
    c2.children.filterMap get_year_from_child
  else (get_year_from_child c2).toList

/-- All qualifying year values of `find_year`'s traversal, in traversal
order over the token's grandchildren. -/
def findYearCandidates (token : Token) : List ℤ :=
  token.children.flatMap (fun c1 => c1.children.flatMap yearBranchCandidates)

/-- A character that takes the accumulating branch of the extractor loop:
bold, not whitespace, not in the punctuation/digit break set. -/
def boldLetter (pc : PChar) : Prop :=
  pc.bold = true ∧ pc.text.isWhitespace = false ∧ isBreakChar pc.text = false

/-- The loop invariant of `extract_pdf_from_url` over the consumed input:
`index` counts the consumed characters, `all_text` is their text, the
cursor never exceeds `index`, every position from the cursor up to `index`
holds a bold letter (the cursor only stays behind over the accumulating
branch), and every recorded offset is a bold-letter position below
`index`. -/
def goodState (input : List PChar) (st : ExtractState) : Prop :=
  st.index = st.all_text.length ∧
  st.all_text = input.map PChar.text ∧
  st.start ≤ st.index ∧
  (∀ j, st.start ≤ j → j < st.index →
    ∃ pc, input[j]? = some pc ∧ boldLetter pc) ∧
  (∀ k offs, (k, offs) ∈ st.bold_words → ∀ o ∈ offs,
    o < st.index ∧ ∃ pc, input[o]? = some pc ∧ boldLetter pc)

/-- A token sequence consisting of one object-of-preposition four-digit
token: it contributes exactly one year mention and nothing else. -/
def yearOnlyToken : Token :=
  .mk "2015" "2015" "dddd" "pobj" "in" "in" "xx" "xxxx" []

/-- A quarter token whose single child carries two qualifying year
grandchildren, `2014` then `2016`. -/
def quarterTokenTwo : Token :=
  .mk "quarters" "quarter" "xxxx" "pobj" "said" "say" "xxxx" "xx"
    [.mk "of" "of" "xx" "prep" "quarters" "quarter" "xxxx" "said"
      [.mk "2014" "2014" "dddd" "pobj" "of" "of" "xx" "quarters" [],
       .mk "2016" "2016" "dddd" "nummod" "of" "of" "xx" "quarters" []]]

/-- A four-digit object-of-preposition token under the quarter token. -/
def yearPobjToken : Token :=
  .mk "2015" "2015" "dddd" "pobj" "in" "in" "xx" "quarters" []

/-- A preposition child of the quarter token (neither `nummod` nor
`amod`, so `find_quarters` finds no location). -/
def prepToken : Token :=
  .mk "in" "in" "xx" "prep" "quarters" "quarter" "xxxx" "said" [yearPobjToken]

/-- A token with lemma `quarter` whose subtree yields the year `2015` but
no adjectival-modifier location. -/
def quarterNoLocToken : Token :=
  .mk "quarters" "quarter" "xxxx" "pobj" "said" "say" "xxxx" "xx" [prepToken]

/-! Section: helper lemmas: running minima and maxima -/

theorem runMin_mem (init : ℚ) (l : List ℚ) : runMin init l ∈ init :: l := by
  induction l generalizing init with
  | nil => simp [runMin]
  | cons ts l ih =>
    simp only [runMin, List.foldl_cons]
    have h := ih (if ts < init then ts else init)
    simp only [runMin] at h
    rcases List.mem_cons.mp h with h' | h'
    · rw [h']
      by_cases hc : ts < init
      · rw [if_pos hc]
        exact List.mem_cons_of_mem _ (List.mem_cons_self _ _)
      · rw [if_neg hc]
        exact List.mem_cons_self _ _
    · exact List.mem_cons_of_mem _ (List.mem_cons_of_mem _ h')

theorem runMin_le_init (init : ℚ) (l : List ℚ) : runMin init l ≤ init := by
  induction l generalizing init with
  | nil => simp [runMin]
  | cons ts l ih =>
    simp only [runMin, List.foldl_cons]
    refine le_trans (ih _) ?_
    by_cases hc : ts < init
    · rw [if_pos hc]; exact le_of_lt hc
    · rw [if_neg hc]

theorem runMin_le_mem (init : ℚ) (l : List ℚ) (x : ℚ) (hx : x ∈ l) :
    runMin init l ≤ x := by
  induction l generalizing init with
  | nil => cases hx
  | cons ts l ih =>
    simp only [runMin, List.foldl_cons]
    rcases List.mem_cons.mp hx with h' | h'
    · subst h'
      refine le_trans (runMin_le_init _ l) ?_
      by_cases hc : x < init
      · rw [if_pos hc]
      · rw [if_neg hc]; exact le_of_not_lt hc
    · exact ih _ h'

theorem runMax_mem (init : ℚ) (l : List ℚ) : runMax init l ∈ init :: l := by
  induction l generalizing init with
  | nil => simp [runMax]
  | cons ts l ih =>
    simp only [runMax, List.foldl_cons]
    have h := ih (if ts > init then ts else init)
    simp only [runMax] at h
    rcases List.mem_cons.mp h with h' | h'
    · rw [h']
      by_cases hc : ts > init
      · rw [if_pos hc]
        exact List.mem_cons_of_mem _ (List.mem_cons_self _ _)
      · rw [if_neg hc]
        exact List.mem_cons_self _ _
    · exact List.mem_cons_of_mem _ (List.mem_cons_of_mem _ h')

theorem runMax_init_le (init : ℚ) (l : List ℚ) : init ≤ runMax init l := by
  induction l generalizing init with
  | nil => simp [runMax]
  | cons ts l ih =>
    simp only [runMax, List.foldl_cons]
    refine le_trans ?_ (ih _)
    by_cases hc : ts > init
    · rw [if_pos hc]; exact le_of_lt hc
    · rw [if_neg hc]

theorem runMax_mem_le (init : ℚ) (l : List ℚ) (x : ℚ) (hx : x ∈ l) :
    x ≤ runMax init l := by
  induction l generalizing init with
  | nil => cases hx
  | cons ts l ih =>
    simp only [runMax, List.foldl_cons]
    rcases List.mem_cons.mp hx with h' | h'
    · subst h'
      refine le_trans ?_ (runMax_init_le _ l)
      by_cases hc : x > init
      · rw [if_pos hc]
      · rw [if_neg hc]; exact le_of_not_lt hc
    · exact ih _ h'

/-! Section: helper lemmas: the `1/12` grid of timestamps -/

theorem onGrid_ts (y m : ℤ) : onGrid ((y : ℚ) + (m : ℚ) / 12) :=
  ⟨12 * y + m, by push_cast; ring⟩

theorem onGrid_hundredk : onGrid 100000 := ⟨1200000, by norm_num⟩

theorem onGrid_zero : onGrid 0 := ⟨0, by norm_num⟩

theorem timestamps_onGrid (months : List (ℤ × List ℤ)) (ts : ℚ)
    (h : ts ∈ timestamps months) : onGrid ts := by
  unfold timestamps at h
  rw [List.mem_flatMap] at h
  obtain ⟨p, hp, hts⟩ := h
  rw [List.mem_map] at hts
  obtain ⟨m, hm, rfl⟩ := hts
  exact onGrid_ts p.1 m

theorem bankersRound_intCast (z : ℤ) : bankersRound (z : ℚ) = z := by
  simp only [bankersRound, Int.floor_intCast, sub_self]
  norm_num

theorem monthPart_eq_sub (z : ℤ) :
    monthPart ((z : ℚ) / 12) = z - 12 * ⌊(z : ℚ) / 12⌋ := by
  have h : ((z : ℚ) / 12 - ⌊(z : ℚ) / 12⌋) * 12 =
      (((z - 12 * ⌊(z : ℚ) / 12⌋ : ℤ) : ℚ)) := by push_cast; ring
  rw [monthPart, h, bankersRound_intCast]

theorem floor_twelfth_bounds (z : ℤ) :
    12 * ⌊(z : ℚ) / 12⌋ ≤ z ∧ z < 12 * ⌊(z : ℚ) / 12⌋ + 12 := by
  constructor
  · have h := Int.floor_le ((z : ℚ) / 12)
    have : ((12 * ⌊(z : ℚ) / 12⌋ : ℤ) : ℚ) ≤ (z : ℚ) := by push_cast; linarith
    exact_mod_cast this
  · have h := Int.lt_floor_add_one ((z : ℚ) / 12)
    have : (z : ℚ) < ((12 * ⌊(z : ℚ) / 12⌋ + 12 : ℤ) : ℚ) := by push_cast; linarith
    exact_mod_cast this

theorem monthPart_range (z : ℤ) :
    0 ≤ monthPart ((z : ℚ) / 12) ∧ monthPart ((z : ℚ) / 12) ≤ 11 := by
  have hb := floor_twelfth_bounds z
  rw [monthPart_eq_sub]
  omega

theorem grid_le_of_div_le (z1 z2 : ℤ) (h : (z1 : ℚ) / 12 ≤ (z2 : ℚ) / 12) :
    z1 ≤ z2 := by
  have : (z1 : ℚ) ≤ (z2 : ℚ) := by linarith
  exact_mod_cast this

/-! Section: helper lemmas: the two-sigma acceptance window

`accepts` states the window `mean − 2·std < ts < mean + 2·std` in the
square-free form `(ts − mean)² < 4·variance`; over the reals the two are
equivalent, which justifies the embedding. -/

theorem twoSigma_iff (m v x : ℝ) (hv : 0 ≤ v) :
    (m - 2 * Real.sqrt v < x ∧ x < m + 2 * Real.sqrt v) ↔
      (x - m) ^ 2 < 4 * v := by
  have hs : Real.sqrt v ^ 2 = v := Real.sq_sqrt hv
  have hs0 : 0 ≤ Real.sqrt v := Real.sqrt_nonneg v
  constructor
  · rintro ⟨h1, h2⟩; nlinarith
  · intro h
    constructor
    · nlinarith [sq_nonneg (x - m + 2 * Real.sqrt v)]
    · nlinarith [sq_nonneg (x - m - 2 * Real.sqrt v)]

theorem sampleVariance_nonneg (ys : List ℤ) : 0 ≤ sampleVariance ys := by
  unfold sampleVariance
  apply div_nonneg
  · apply List.sum_nonneg
    intro x hx
    simp only [List.mem_map] at hx
    obtain ⟨y, _, rfl⟩ := hx
    positivity
  · positivity

theorem accepts_iff_two_sigma (ys : List ℤ) (ts : ℚ) (h : 1 < ys.length) :
    accepts ys ts = true ↔
      ((sampleMean ys : ℝ) - 2 * Real.sqrt (sampleVariance ys) < (ts : ℝ) ∧
        (ts : ℝ) < (sampleMean ys : ℝ) + 2 * Real.sqrt (sampleVariance ys)) := by
  have hv : (0 : ℝ) ≤ (sampleVariance ys : ℝ) := by
    exact_mod_cast sampleVariance_nonneg ys
  rw [twoSigma_iff _ _ _ hv]
  simp only [accepts, if_pos h, decide_eq_true_eq]
  constructor
  · intro h'
    have : (((ts - sampleMean ys) ^ 2 : ℚ) : ℝ) <
        ((4 * sampleVariance ys : ℚ) : ℝ) := by exact_mod_cast h'
    push_cast at this
    convert this using 2
  · intro h'
    have : (((ts - sampleMean ys) ^ 2 : ℚ) : ℝ) <
        ((4 * sampleVariance ys : ℚ) : ℝ) := by push_cast; push_cast at h'; linarith
    exact_mod_cast this

theorem monthPart_intCast (z : ℤ) : monthPart ((z : ℚ)) = 0 := by
  have h0 : ((0 : ℤ) : ℚ) = 0 := by norm_num
  rw [monthPart, Int.floor_intCast, sub_self, zero_mul, ← h0,
    bankersRound_intCast]

theorem monthPart_hundredk : monthPart 100000 = 0 := by
  have h : (100000 : ℚ) = ((100000 : ℤ) : ℚ) := by norm_num
  rw [h, monthPart_intCast]

theorem monthPart_zero : monthPart 0 = 0 := by
  have h : (0 : ℚ) = ((0 : ℤ) : ℚ) := by norm_num
  rw [h, monthPart_intCast]

/-- Unfolding of `find_interval` once the quarter merge succeeded. -/
theorem find_interval_eq (years : List ℤ)
    (qs : List (ℤ × List QuarterMention)) (months merged : List (ℤ × List ℤ))
    (h : mergeQuarters qs months = some merged) :
    find_interval years qs months =
      some ⟨⌊runMin 100000 (acceptedOf years merged)⌋,
            monthPart (runMin 100000 (acceptedOf years merged)),
            ⌊runMax 0 (acceptedOf years merged)⌋,
            monthPart (runMax 0 (acceptedOf years merged))⟩ := by
  simp [find_interval, h]

/-- With no quarter and month mentions at all, nothing is accepted and the
result is built from the untouched sentinels `100000` and `0`. -/
theorem find_interval_no_months (years : List ℤ) :
    find_interval years [] [] = some ⟨100000, 0, 0, 0⟩ := by
  rw [find_interval_eq years [] [] [] rfl]
  have hA : acceptedOf years [] = [] := rfl
  rw [hA]
  have h1 : runMin 100000 ([] : List ℚ) = 100000 := rfl
  have h2 : runMax 0 ([] : List ℚ) = 0 := rfl
  rw [h1, h2, monthPart_hundredk, monthPart_zero]
  norm_num

/-- The accumulated minimum and maximum stay on the `1/12` grid. -/
theorem runMin_onGrid (years : List ℤ) (merged : List (ℤ × List ℤ)) :
    onGrid (runMin 100000 (acceptedOf years merged)) := by
  rcases List.mem_cons.mp (runMin_mem 100000 (acceptedOf years merged)) with
    h | h
  · rw [h]; exact onGrid_hundredk
  · exact timestamps_onGrid _ _ (List.mem_of_mem_filter h)

theorem runMax_onGrid (years : List ℤ) (merged : List (ℤ × List ℤ)) :
    onGrid (runMax 0 (acceptedOf years merged)) := by
  rcases List.mem_cons.mp (runMax_mem 0 (acceptedOf years merged)) with h | h
  · rw [h]; exact onGrid_zero
  · exact timestamps_onGrid _ _ (List.mem_of_mem_filter h)

/-! Section: claim theorems for C1. -/

/-- Claim C1 is false as stated: a token sequence with exactly one year
mention and no quarter/month mentions makes `parse_text` return the
sentinel interval `{100000, 0, 0, 0}`, not a degenerate interval centered
on the observed year `2015`. -/
theorem c1_counterexample :
    parse_text [yearOnlyToken] = some ⟨100000, 0, 0, 0⟩ ∧
      ¬ ((100000 : ℤ) = 2015 ∧ (0 : ℤ) = 2015) := by
  constructor
  · have h : parse_text [yearOnlyToken] = find_interval [2015] [] [] := rfl
    rw [h, find_interval_no_months]
  · decide

/-- Claim C1 (amended): with exactly one year observed and no
quarter/month mentions, `find_interval` indeed does not apply the
two-sigma filter — acceptance is the sentinel test `0 < ts < 100000` —
but it returns the sentinel interval
`year_start = 100000, month_start = 0, year_end = 0, month_end = 0`
(the vacuous-interval sentinel), not an interval centered on the year. -/
theorem c1_amended (y : ℤ) :
    accepts [y] = (fun ts => decide (0 < ts ∧ ts < 100000)) ∧
      find_interval [y] [] [] = some ⟨100000, 0, 0, 0⟩ := by
  constructor
  · funext ts
    simp [accepts]
  · exact find_interval_no_months [y]

/-! Section: claim theorems for C2. -/

/-- Claim C2 is false as stated: for years `[2015, 2016, 2017, 2099]` the
two-sigma window contains `2099` (the largest attainable z-score among
four samples is `√3 < 2`), so with a June mention recorded for every year
the returned `year_end` equals `2099` rather than being `< 2099`. -/
theorem c2_counterexample :
    find_interval [2015, 2016, 2017, 2099] []
        [(2015, [6]), (2016, [6]), (2017, [6]), (2099, [6])] =
      some ⟨2015, 6, 2099, 6⟩ ∧ ¬ ((2099 : ℤ) < 2099) := by
  constructor
  · norm_num [find_interval, mergeQuarters, acceptedOf, timestamps, accepts,
      monthPart, bankersRound, runMin, runMax, Int.fract, sampleMean,
      sampleVariance]
  · decide

/-- Claim C2 (amended): for years `[2015, 2016, 2017, 2099]` with a month
mention `m ∈ [1, 12]` recorded for each of the four years, every timestamp
lies inside the two-sigma window, so the outlier year contributes and the
returned `year_end` is at least `2099` (exactly `2099` for `m ≤ 11`,
`2100` for a December mention). -/
theorem c2_amended (m : ℤ) (h1 : 1 ≤ m) (h2 : m ≤ 12) :
    2099 ≤ ((find_interval [2015, 2016, 2017, 2099] []
        [(2015, [m]), (2016, [m]), (2017, [m]), (2099, [m])]).map
      Interval.year_end).getD 0 := by
  interval_cases m <;>
    norm_num [find_interval, mergeQuarters, acceptedOf, timestamps, accepts,
      monthPart, bankersRound, runMin, runMax, Int.fract, sampleMean,
      sampleVariance]

theorem c2_witness :
    2099 ≤ ((find_interval [2015, 2016, 2017, 2099] []
        [(2015, [6]), (2016, [6]), (2017, [6]), (2099, [6])]).map
      Interval.year_end).getD 0 :=
  c2_amended 6 (by norm_num) (by norm_num)

/-! Section: claim theorems for C3. -/

/-- Claim C3 is false as stated: with no mentions at all, `find_interval`
returns the sentinel interval whose `year_start = 100000` exceeds its
`year_end = 0`. -/
theorem c3_counterexample :
    find_interval [] [] [] = some ⟨100000, 0, 0, 0⟩ ∧
      ¬ ((100000 : ℤ) ≤ 0) := by
  refine ⟨find_interval_no_months [], by decide⟩

/-- Claim C3 (amended): whenever at least one timestamp is accepted, the
interval returned by `find_interval` satisfies `year_start ≤ year_end`,
and if the two are equal, `month_start ≤ month_end`. -/
theorem c3_amended (years : List ℤ) (qs : List (ℤ × List QuarterMention))
    (months merged : List (ℤ × List ℤ)) (r : Interval)
    (hm : mergeQuarters qs months = some merged)
    (hne : acceptedOf years merged ≠ [])
    (hr : find_interval years qs months = some r) :
    r.year_start ≤ r.year_end ∧
      (r.year_start = r.year_end → r.month_start ≤ r.month_end) := by
  rw [find_interval_eq years qs months merged hm] at hr
  have hr' := (Option.some.inj hr).symm
  subst hr'
  obtain ⟨x, hx⟩ := List.exists_mem_of_ne_nil _ hne
  have hl : runMin 100000 (acceptedOf years merged) ≤ x :=
    runMin_le_mem _ _ _ hx
  have hu : x ≤ runMax 0 (acceptedOf years merged) := runMax_mem_le _ _ _ hx
  have hlu : runMin 100000 (acceptedOf years merged) ≤
      runMax 0 (acceptedOf years merged) := le_trans hl hu
  obtain ⟨z1, hz1⟩ := runMin_onGrid years merged
  obtain ⟨z2, hz2⟩ := runMax_onGrid years merged
  have hz12 : z1 ≤ z2 := grid_le_of_div_le _ _ (hz1 ▸ hz2 ▸ hlu)
  constructor
  · exact Int.floor_le_floor hlu
  · intro heq
    simp only [hz1, hz2] at heq ⊢
    rw [monthPart_eq_sub, monthPart_eq_sub]
    have heq' : ⌊(z1 : ℚ) / 12⌋ = ⌊(z2 : ℚ) / 12⌋ := heq
    rw [heq']
    omega

theorem c3_witness :
    (⟨2019, 5, 2019, 5⟩ : Interval).year_start ≤
        (⟨2019, 5, 2019, 5⟩ : Interval).year_end ∧
      ((⟨2019, 5, 2019, 5⟩ : Interval).year_start =
          (⟨2019, 5, 2019, 5⟩ : Interval).year_end →
        (⟨2019, 5, 2019, 5⟩ : Interval).month_start ≤
          (⟨2019, 5, 2019, 5⟩ : Interval).month_end) :=
  c3_amended [] [] [(2019, [5])] [(2019, [5])] ⟨2019, 5, 2019, 5⟩ rfl
    (by norm_num [acceptedOf, timestamps, accepts])
    (by norm_num [find_interval, mergeQuarters, acceptedOf, timestamps,
      accepts, monthPart, bankersRound, runMin, runMax, Int.fract])

/-! Section: claim theorems for C10. -/

/-- Claim C10: the reported months always lie in `0..11` (they are the
timestamp's residue modulo one year, in twelfths), and a December mention
`(y, 12)` produces the timestamp `y + 1` and is reported as year `y + 1`
with month `0`. -/
theorem c10 :
    (∀ (years : List ℤ) (qs : List (ℤ × List QuarterMention))
        (months merged : List (ℤ × List ℤ)) (r : Interval),
      mergeQuarters qs months = some merged →
      acceptedOf years merged ≠ [] →
      find_interval years qs months = some r →
      (0 ≤ r.month_start ∧ r.month_start ≤ 11 ∧
        0 ≤ r.month_end ∧ r.month_end ≤ 11)) ∧
    (∀ y : ℤ, 0 < y + 1 → y + 1 < 100000 →
      find_interval [] [] [(y, [12])] = some ⟨y + 1, 0, y + 1, 0⟩) := by
  constructor
  · intro years qs months merged r hm _ hr
    rw [find_interval_eq years qs months merged hm] at hr
    have hr' := (Option.some.inj hr).symm
    subst hr'
    obtain ⟨z1, hz1⟩ := runMin_onGrid years merged
    obtain ⟨z2, hz2⟩ := runMax_onGrid years merged
    simp only [hz1, hz2]
    have h1 := monthPart_range z1
    have h2 := monthPart_range z2
    exact ⟨h1.1, h1.2, h2.1, h2.2⟩
  · intro y hy1 hy2
    have hmerge : mergeQuarters [] [(y, [12])] = some [(y, [12])] := rfl
    rw [find_interval_eq [] [] [(y, [12])] [(y, [12])] hmerge]
    have hcast : ((y : ℚ) + 1) = ((y + 1 : ℤ) : ℚ) := by push_cast; ring
    have hlt : ((y : ℚ) + 1) < 100000 := by
      rw [hcast]; exact_mod_cast hy2
    have hgt : (0 : ℚ) < ((y : ℚ) + 1) := by
      rw [hcast]; exact_mod_cast hy1
    have hT : timestamps [(y, [12])] = [(y : ℚ) + 1] := by
      norm_num [timestamps]
    have hacc : accepts [] ((y : ℚ) + 1) = true := by
      simp [accepts, hgt, hlt]
    have hA : acceptedOf [] [(y, [12])] = [(y : ℚ) + 1] := by
      rw [acceptedOf, hT]
      simp [hacc]
    rw [hA]
    have hmin : runMin 100000 [(y : ℚ) + 1] = ((y : ℚ) + 1) := by
      simp only [runMin, List.foldl_cons, List.foldl_nil]
      rw [if_pos hlt]
    have hmax : runMax 0 [(y : ℚ) + 1] = ((y : ℚ) + 1) := by
      simp only [runMax, List.foldl_cons, List.foldl_nil]
      rw [if_pos hgt]
    rw [hmin, hmax, hcast, Int.floor_intCast, monthPart_intCast]

theorem c10_witness :
    (0 ≤ (⟨2019, 5, 2019, 5⟩ : Interval).month_start ∧
        (⟨2019, 5, 2019, 5⟩ : Interval).month_start ≤ 11 ∧
        0 ≤ (⟨2019, 5, 2019, 5⟩ : Interval).month_end ∧
        (⟨2019, 5, 2019, 5⟩ : Interval).month_end ≤ 11) ∧
      find_interval [] [] [(2019, [12])] = some ⟨2020, 0, 2020, 0⟩ := by
  constructor
  · exact c10.1 [] [] [(2019, [5])] [(2019, [5])] ⟨2019, 5, 2019, 5⟩ rfl
      (by norm_num [acceptedOf, timestamps, accepts])
      (by norm_num [find_interval, mergeQuarters, acceptedOf, timestamps,
        accepts, monthPart, bankersRound, runMin, runMax, Int.fract])
  · have h := c10.2 2019 (by norm_num) (by norm_num)
    norm_num at h
    exact h

/-! Section: helper lemmas: overwrite folds (`find_year`) -/

theorem lastOr_none (l : List ℤ) : lastOr l none = l.getLast? := by
  cases h : l.getLast? <;> simp [lastOr, h]

theorem lastOr_cons (x : ℤ) (l : List ℤ) (a : Option ℤ) :
    lastOr (x :: l) a = lastOr l (some x) := by
  cases l with
  | nil => simp [lastOr]
  | cons y l =>
    unfold lastOr
    rw [List.getLast?_cons_cons]
    cases h : (y :: l).getLast? with
    | none => simp [List.getLast?_eq_none_iff] at h
    | some v => rfl

theorem lastOr_append (l1 l2 : List ℤ) (a : Option ℤ) :
    lastOr (l1 ++ l2) a = lastOr l2 (lastOr l1 a) := by
  induction l1 generalizing a with
  | nil => simp [lastOr]
  | cons x l1 ih => rw [List.cons_append, lastOr_cons, ih, lastOr_cons]

/-- An overwriting fold (`if temp is not None: year = temp`) keeps the last
hit of the produced candidates. -/
theorem foldl_overwrite {α : Type} (g : α → Option ℤ) (xs : List α)
    (a : Option ℤ) :
    xs.foldl (fun y c => match g c with | some t => some t | none => y) a =
      lastOr (xs.filterMap g) a := by
  induction xs generalizing a with
  | nil => rfl
  | cons c xs ih =>
    simp only [List.foldl_cons]
    cases hg : g c with
    | none => rw [ih, List.filterMap_cons, hg]
    | some t => rw [ih, List.filterMap_cons, hg, lastOr_cons]

theorem foldl_lastOr_flatMap {α : Type} (f : α → List ℤ) (xs : List α)
    (a : Option ℤ) :
    xs.foldl (fun y c => lastOr (f c) y) a = lastOr (xs.flatMap f) a := by
  induction xs generalizing a with
  | nil => simp [lastOr]
  | cons c xs ih =>
    simp only [List.foldl_cons, List.flatMap_cons]
    rw [ih, lastOr_append]

/-! Section: claim theorems for C8. -/

theorem middle_step (c2 : Token) (year : Option ℤ) :
    (if pyLower c2.lemma_ == "year" || appearsIn (pyLower c2.lemma_) "fys"
      then
        c2.children.foldl (fun y c3 =>
          match get_year_from_child c3 with
          | some t => some t
          | none => y) year
      else
        match get_year_from_child c2 with
        | some t => some t
        | none => year) =
      lastOr (yearBranchCandidates c2) year := by
  unfold yearBranchCandidates
  by_cases hb : (pyLower c2.lemma_ == "year" ||
      appearsIn (pyLower c2.lemma_) "fys") = true
  · rw [if_pos hb, if_pos hb, foldl_overwrite]
  · rw [if_neg hb, if_neg hb]
    cases hg : get_year_from_child c2 with
    | none => simp [lastOr]
    | some t => simp [lastOr]

theorem find_year_eq_last (token : Token) :
    find_year token = (findYearCandidates token).getLast? := by
  unfold find_year findYearCandidates
  have hmid : (fun (year : Option ℤ) c2 =>
      if pyLower (Token.lemma_ c2) == "year" ||
          appearsIn (pyLower (Token.lemma_ c2)) "fys" then
        (Token.children c2).foldl (fun y c3 =>
          match get_year_from_child c3 with
          | some t => some t
          | none => y) year
      else
        match get_year_from_child c2 with
        | some t => some t
        | none => year) =
      (fun year c2 => lastOr (yearBranchCandidates c2) year) := by
    funext year c2
    exact middle_step c2 year
  rw [hmid]
  have hinner : (fun (year : Option ℤ) c1 =>
      (Token.children c1).foldl
        (fun year c2 => lastOr (yearBranchCandidates c2) year) year) =
      (fun year c1 =>
        lastOr ((Token.children c1).flatMap yearBranchCandidates) year) := by
    funext year c1
    exact foldl_lastOr_flatMap _ _ _
  rw [hinner, foldl_lastOr_flatMap, lastOr_none]

/-- Claim C8: for a quarter token, `find_year` returns the last qualifying
year value in traversal order over the grandchildren (descending into the
children of a `year`/fiscal-year grandchild) — later matches overwrite
earlier ones with no other tie-break. -/
theorem c8 (token : Token) (_h : token.lemma_ = "quarter") :
    find_year token = (findYearCandidates token).getLast? :=
  find_year_eq_last token

theorem c8_witness :
    find_year quarterTokenTwo = (findYearCandidates quarterTokenTwo).getLast? :=
  c8 quarterTokenTwo rfl

/-! Section: claim theorems for C9. -/

theorem foldlM_quarter_none (y : ℤ) (ms : List QuarterMention)
    (q : QuarterMention) (hq : q ∈ ms) (hloc : qmLookup q.location = none)
    (init : List (ℤ × List ℤ)) :
    ms.foldlM (fun acc2 q' =>
      match qmLookup q'.location with
      | none => none
      | some m => some (addAssoc acc2 y m)) init = none := by
  induction ms generalizing init with
  | nil => cases hq
  | cons q0 ms ih =>
    rcases List.mem_cons.mp hq with rfl | hmem
    · simp [List.foldlM_cons, hloc]
    · cases hl : qmLookup q0.location with
      | none => simp [List.foldlM_cons, hl]
      | some m =>
        simp only [List.foldlM_cons, hl, Option.bind_eq_bind,
          Option.some_bind]
        exact ih hmem _

theorem mergeQuarters_none (qs : List (ℤ × List QuarterMention))
    (months : List (ℤ × List ℤ)) (y : ℤ) (ms : List QuarterMention)
    (q : QuarterMention) (hm : (y, ms) ∈ qs) (hq : q ∈ ms)
    (hloc : q.location = none) : mergeQuarters qs months = none := by
  unfold mergeQuarters
  induction qs generalizing months with
  | nil => cases hm
  | cons p qs ih =>
    rcases List.mem_cons.mp hm with rfl | hmem
    · have hfail : addQuarterMonths months y ms = none := by
        unfold addQuarterMonths
        apply foldlM_quarter_none y ms q hq
        rw [hloc]
        rfl
      simp [List.foldlM_cons, hfail]
    · cases ha : addQuarterMonths months p.1 p.2 with
      | none => simp [List.foldlM_cons, ha]
      | some acc' =>
        simp only [List.foldlM_cons, ha, Option.bind_eq_bind,
          Option.some_bind]
        exact ih acc' hmem

/-- Claim C9: `parse_text` can fail with a key-not-found error: a quarter
token that yields a year through `find_year` but whose `find_quarters`
location is `None` makes `find_interval` look up `None` in the
quarter-to-month table, which raises (`none`).  The concrete token
sequence `[quarterNoLocToken, prepToken, yearPobjToken]` exhibits this,
and in general any quarter mention with a `None` location makes
`find_interval` fail. -/
theorem c9 :
    parse_text [quarterNoLocToken, prepToken, yearPobjToken] = none ∧
    find_year quarterNoLocToken = some 2015 ∧
    (find_quarters quarterNoLocToken).1 = none ∧
    (∀ (years : List ℤ) (qs : List (ℤ × List QuarterMention))
        (months : List (ℤ × List ℤ)) (y : ℤ) (ms : List QuarterMention)
        (q : QuarterMention), (y, ms) ∈ qs → q ∈ ms → q.location = none →
      find_interval years qs months = none) := by
  refine ⟨rfl, rfl, rfl, ?_⟩
  intro years qs months y ms q hm hq hloc
  unfold find_interval
  rw [mergeQuarters_none qs months y ms q hm hq hloc]

theorem c9_witness :
    find_interval [2015] [(2015, [⟨none, none⟩])] [] = none :=
  c9.2.2.2 [2015] [(2015, [⟨none, none⟩])] [] 2015 [⟨none, none⟩]
    ⟨none, none⟩ (List.mem_singleton.mpr rfl) (List.mem_singleton.mpr rfl)
    rfl

/-! Section: claim theorems for C5. -/

/-- Claim C5 is false as stated: nothing orders the two anchors, so an
index in which `"i."` is first recorded before `"in"` makes
`get_section_portion` return a span with `startOffset = 50 > endOffset = 9`
without raising. -/
theorem c5_counterexample :
    get_section_portion "" [("in", [50]), ("i.", [10])] "In" "I." =
      some ("", 50, 9) ∧ ¬ ((50 : ℤ) ≤ 9) := by
  constructor
  · decide
  · decide

/-- Claim C5 (amended): when both anchors are present and the first
recorded offset of the start anchor `"in"` precedes the first recorded
offset of the end anchor `"i."`, the returned span satisfies
`startOffset ≤ endOffset`. -/
theorem c5_amended (text : String) (bw : BoldIndex) (a b : ℕ)
    (l1 l2 : List ℕ) (s : String) (st : ℕ) (en : ℤ)
    (ha : List.lookup "in" bw = some (a :: l1))
    (hb : List.lookup "i." bw = some (b :: l2))
    (hab : (a : ℤ) < (b : ℤ))
    (hr : get_section_portion text bw "In" "I." = some (s, st, en)) :
    (st : ℤ) ≤ en := by
  have h1 : pyLower "In" = "in" := by decide
  have h2 : pyLower "I." = "i." := by decide
  rw [get_section_portion, h1, h2, ha, hb] at hr
  simp only [Option.some.injEq, Prod.mk.injEq] at hr
  obtain ⟨-, h3, h4⟩ := hr
  omega

theorem c5_witness : ((10 : ℕ) : ℤ) ≤ 29 :=
  c5_amended "abc" [("in", [10]), ("i.", [30])] 10 30 [] [] "" 10 29
    (by decide) (by decide) (by decide) (by decide)

/-! Section: helper lemmas: the bold-offset fallback scan (C6) -/

theorem nested_foldl_eq {κ : Type} (g : ℤ → ℕ → ℤ)
    (l : List (κ × List ℕ)) (init : ℤ) :
    l.foldl (fun acc kv => kv.2.foldl g acc) init =
      (l.flatMap (fun p => p.2)).foldl g init := by
  induction l generalizing init with
  | nil => rfl
  | cons p l ih =>
    simp only [List.foldl_cons, List.flatMap_cons, List.foldl_append]
    exact ih _

theorem scanMin_eq (bw : BoldIndex) (s : ℤ) :
    scanMin bw s = (allOffsets bw).foldl (scanStep s) (s + 10000000) := by
  unfold scanMin allOffsets
  exact nested_foldl_eq (scanStep s) bw (s + 10000000)

theorem scanFold_le_init (s : ℤ) (xs : List ℕ) (init : ℤ) :
    xs.foldl (scanStep s) init ≤ init := by
  induction xs generalizing init with
  | nil => simp
  | cons o xs ih =>
    simp only [List.foldl_cons]
    refine le_trans (ih _) ?_
    unfold scanStep
    by_cases hc : init > (o : ℤ) ∧ (o : ℤ) > s
    · rw [if_pos hc]; exact le_of_lt hc.1
    · rw [if_neg hc]

theorem scanFold_cases (s : ℤ) (xs : List ℕ) (init : ℤ) :
    xs.foldl (scanStep s) init = init ∨
      ∃ o ∈ xs, xs.foldl (scanStep s) init = (o : ℤ) ∧ s < (o : ℤ) := by
  induction xs generalizing init with
  | nil => left; rfl
  | cons o0 xs ih =>
    simp only [List.foldl_cons]
    rcases ih (scanStep s init o0) with h | ⟨o, ho, h, hs'⟩
    · by_cases hc : init > (o0 : ℤ) ∧ (o0 : ℤ) > s
      · right
        refine ⟨o0, List.mem_cons_self _ _, ?_, hc.2⟩
        rw [h, scanStep, if_pos hc]
      · left
        rw [h, scanStep, if_neg hc]
    · right
      exact ⟨o, List.mem_cons_of_mem _ ho, h, hs'⟩

theorem scanFold_min (s : ℤ) (xs : List ℕ) (init : ℤ) (o : ℕ)
    (ho : o ∈ xs) (hso : s < (o : ℤ)) :
    xs.foldl (scanStep s) init ≤ (o : ℤ) := by
  induction xs generalizing init with
  | nil => cases ho
  | cons o0 xs ih =>
    simp only [List.foldl_cons]
    rcases List.mem_cons.mp ho with rfl | hmem
    · refine le_trans (scanFold_le_init s xs _) ?_
      unfold scanStep
      by_cases hc : init > (o : ℤ) ∧ (o : ℤ) > s
      · rw [if_pos hc]
      · rw [if_neg hc]
        rcases not_and_or.mp hc with h' | h'
        · exact le_of_not_lt h'
        · exact absurd hso h'
    · exact ih _ hmem

/-! Section: claim theorems for C6. -/

/-- Claim C6 is false as stated: when every bold offset greater than the
summary start lies at or beyond `start + 10000000`, the fallback scan keeps
the sentinel `start + 10000000` (here `10000150`), which is smaller than —
and different from — the smallest bold offset `10000151` strictly greater
than the start `150`. -/
theorem c6_counterexample :
    resolve_summary_end [("x", [10000151])] "Respondent" 150 =
        some 10000150 ∧
      allOffsets [("x", [10000151])] = [10000151] ∧
      (10000150 : ℤ) ≠ (10000151 : ℤ) := by
  refine ⟨by decide, by decide, by decide⟩

/-- Claim C6 (amended): when neither `"respondent"` nor `"respondents"`
qualifies (present with last offset at or after the start), the summary
end resolves to the smallest bold-span offset strictly greater than the
summary start, provided that offset lies within the scan window
`(start, start + 10000000)`. -/
theorem c6_amended (bw : BoldIndex) (s : ℤ) (o : ℕ)
    (h1 : lastQualifies bw "respondent" s = false)
    (h2 : lastQualifies bw "respondents" s = false)
    (ho : o ∈ allOffsets bw) (hso : s < (o : ℤ))
    (hlt : (o : ℤ) < s + 10000000)
    (hmin : ∀ o' ∈ allOffsets bw, s < (o' : ℤ) → o ≤ o') :
    resolve_summary_end bw "Respondent" s = some ((o : ℕ) : ℤ) := by
  have hL : pyLower "Respondent" = "respondent" := by decide
  have hS : ("respondent" ++ "s" : String) = "respondents" := by decide
  have heq : scanMin bw s = (o : ℤ) := by
    have hle : scanMin bw s ≤ (o : ℤ) := by
      rw [scanMin_eq]
      exact scanFold_min s _ _ o ho hso
    rcases scanMin_eq bw s ▸ scanFold_cases s (allOffsets bw) (s + 10000000)
      with h | ⟨o', ho', h, hs'⟩
    · exfalso
      rw [h] at hle
      omega
    · have hge : (o : ℤ) ≤ (o' : ℤ) := by exact_mod_cast hmin o' ho' hs'
      rw [h] at hle ⊢
      omega
  rw [resolve_summary_end]
  simp only [hL, hS, h1, Bool.false_eq_true, if_false, h2, heq]

theorem c6_witness :
    resolve_summary_end [("a", [100]), ("b", [250]), ("c", [400])]
      "Respondent" 150 = some ((250 : ℕ) : ℤ) :=
  c6_amended [("a", [100]), ("b", [250]), ("c", [400])] 150 250 (by decide)
    (by decide) (by decide) (by decide) (by decide) (by decide)

/-! Section: claim theorems for C7. -/

/-- Claim C7 is false as stated: with the summary anchor at offset `5`
(before the section start `10`) and the respondent anchor recorded exactly
at offset `5`, the end-resolution `while` loop walks past the end of the
offset list and raises `IndexError` (`none`) before the degraded-path
check is reached — no degraded span is returned. -/
theorem c7_counterexample :
    get_summary_portion "x" [("in", [10]), ("i.", [30]), ("summary", [5]),
        ("respondent", [5])] "Summary" "Respondent" 10 29 = none ∧
      sum_start_resolve "x" [("in", [10]), ("i.", [30]), ("summary", [5]),
        ("respondent", [5])] "Summary" = some 5 ∧
      (5 : ℤ) < 10 := by
  refine ⟨by decide, by decide, by decide⟩

/-- Claim C7 (amended): whenever the resolved summary start is strictly
before the section start **and the end resolution itself succeeds**,
`get_summary_portion` raises nothing and returns the degraded span from
just after the section's end to the end of the document
(`endOffset = -1`); the accompanying warning is printed, not returned. -/
theorem c7_amended (text : String) (bw : BoldIndex) (ss es : String)
    (section_start section_end s e : ℤ)
    (hs : sum_start_resolve text bw ss = some s)
    (he : resolve_summary_end bw es s = some e)
    (hlt : s < section_start) :
    get_summary_portion text bw ss es section_start section_end =
      some (pySliceFrom text (section_end + 1), section_end + 1, -1) := by
  simp only [get_summary_portion, hs, he]
  rw [if_pos hlt]

theorem c7_witness :
    get_summary_portion "abcdef" [("summary", [2])] "Summary" "Respondent"
        10 3 = some (pySliceFrom "abcdef" (3 + 1), 3 + 1, -1) :=
  c7_amended "abcdef" [("summary", [2])] "Summary" "Respondent" 10 3 2
    10000002 (by decide) (by decide) (by decide)

/-! Section: helper lemmas: the bold-span extractor invariant (C4) -/

theorem addAssoc_offsets {κ α : Type} [BEq κ] (l : List (κ × List α))
    (k : κ) (v : α) (P : α → Prop)
    (hl : ∀ k' offs, (k', offs) ∈ l → ∀ o ∈ offs, P o) (hv : P v) :
    ∀ k' offs, (k', offs) ∈ addAssoc l k v → ∀ o ∈ offs, P o := by
  induction l with
  | nil =>
    intro k' offs hmem o ho
    simp only [addAssoc, List.mem_singleton, Prod.mk.injEq] at hmem
    rw [hmem.2] at ho
    rcases List.mem_singleton.mp ho with rfl
    exact hv
  | cons p l ih =>
    obtain ⟨k0, vs0⟩ := p
    intro k' offs hmem o ho
    simp only [addAssoc] at hmem
    by_cases hk : (k0 == k) = true
    · rw [if_pos hk] at hmem
      rcases List.mem_cons.mp hmem with heq | hmem'
      · have hofs : offs = vs0 ++ [v] := congrArg Prod.snd heq
        rw [hofs] at ho
        rcases List.mem_append.mp ho with ho' | ho'
        · exact hl k0 vs0 (List.mem_cons_self _ _) o ho'
        · rcases List.mem_singleton.mp ho' with rfl
          exact hv
      · exact hl k' offs (List.mem_cons_of_mem _ hmem') o ho
    · rw [if_neg hk] at hmem
      rcases List.mem_cons.mp hmem with heq | hmem'
      · have hofs : offs = vs0 := congrArg Prod.snd heq
        rw [hofs] at ho
        exact hl k0 vs0 (List.mem_cons_self _ _) o ho
      · exact ih (fun k1 offs1 h1 => hl k1 offs1 (List.mem_cons_of_mem _ h1))
          k' offs hmem' o ho

theorem stepChar_good (input : List PChar) (st : ExtractState) (c : PChar)
    (h : goodState input st) : goodState (input ++ [c]) (stepChar st c) := by
  obtain ⟨h1, h2, h3, h4, h5⟩ := h
  have hlen : st.index = input.length := by
    rw [h1, h2, List.length_map]
  have hlift : ∀ (j : ℕ), j < st.index →
      (∃ pc, input[j]? = some pc ∧ boldLetter pc) →
      ∃ pc, (input ++ [c])[j]? = some pc ∧ boldLetter pc := by
    intro j hj hex
    obtain ⟨pc, hpc, hb⟩ := hex
    refine ⟨pc, ?_, hb⟩
    rw [List.getElem?_append, if_pos (hlen ▸ hj)]
    exact hpc
  have hnew : (input ++ [c])[st.index]? = some c := by
    rw [hlen]
    exact List.getElem?_concat_length input c
  unfold stepChar goodState
  by_cases hb : (c.bold || c.text.isWhitespace) = true
  · rw [if_pos hb]
    by_cases hw : (c.text.isWhitespace || isBreakChar c.text) = true
    · rw [if_pos hw]
      refine ⟨?_, ?_, ?_, ?_, ?_⟩
      · simp only [List.length_append, List.length_singleton, h1]
      · simp only [List.map_append, List.map_cons, List.map_nil, h2]
      · exact le_refl _
      · intro j hj hj'
        have hj2 : st.index + 1 ≤ j := hj
        have hj3 : j < st.index + 1 := hj'
        exact absurd hj3 (by omega)
      · intro k offs hmem o ho
        have hmem2 : (k, offs) ∈ flushWord st := hmem
        unfold flushWord at hmem2
        by_cases hg : st.start < st.index ∧ st.bold_word ≠ ""
        · rw [if_pos hg] at hmem2
          exact addAssoc_offsets st.bold_words _ st.start
            (fun o => o < st.index + 1 ∧
              ∃ pc, (input ++ [c])[o]? = some pc ∧ boldLetter pc)
            (fun k' offs' hm' o' ho' =>
              ⟨Nat.lt_succ_of_lt (h5 k' offs' hm' o' ho').1,
                hlift o' (h5 k' offs' hm' o' ho').1
                  (h5 k' offs' hm' o' ho').2⟩)
            ⟨Nat.lt_succ_of_lt hg.1, hlift st.start hg.1
              (h4 st.start (le_refl _) hg.1)⟩ k offs hmem2 o ho
        · rw [if_neg hg] at hmem2
          exact ⟨Nat.lt_succ_of_lt (h5 k offs hmem2 o ho).1,
            hlift o (h5 k offs hmem2 o ho).1 (h5 k offs hmem2 o ho).2⟩
    · rw [if_neg hw]
      have hw' : c.text.isWhitespace = false ∧ isBreakChar c.text = false := by
        constructor
        · cases hx : c.text.isWhitespace
          · rfl
          · exact absurd (by rw [hx]; rfl) hw
        · cases hx : isBreakChar c.text
          · rfl
          · exact absurd (by rw [hx, Bool.or_true]) hw
      have hbold : c.bold = true := by
        cases hx : c.bold
        · rw [hx, Bool.false_or] at hb
          rw [hb] at hw'
          exact absurd hw'.1 (by simp)
        · rfl
      have hbl : boldLetter c := ⟨hbold, hw'.1, hw'.2⟩
      refine ⟨?_, ?_, ?_, ?_, ?_⟩
      · simp only [List.length_append, List.length_singleton, h1]
      · simp only [List.map_append, List.map_cons, List.map_nil, h2]
      · exact Nat.le_succ_of_le h3
      · intro j hj hj'
        rcases Nat.lt_succ_iff_lt_or_eq.mp hj' with hlt | rfl
        · exact hlift j hlt (h4 j hj hlt)
        · exact ⟨c, hnew, hbl⟩
      · intro k offs hmem o ho
        exact ⟨Nat.lt_succ_of_lt (h5 k offs hmem o ho).1,
          hlift o (h5 k offs hmem o ho).1 (h5 k offs hmem o ho).2⟩
  · rw [if_neg hb]
    refine ⟨?_, ?_, ?_, ?_, ?_⟩
    · simp only [List.length_append, List.length_singleton, h1]
    · simp only [List.map_append, List.map_cons, List.map_nil, h2]
    · exact le_refl _
    · intro j hj hj'
      have hj2 : st.index + 1 ≤ j := hj
      have hj3 : j < st.index + 1 := hj'
      exact absurd hj3 (by omega)
    · intro k offs hmem o ho
      exact ⟨Nat.lt_succ_of_lt (h5 k offs hmem o ho).1,
        hlift o (h5 k offs hmem o ho).1 (h5 k offs hmem o ho).2⟩

theorem foldl_stepChar_good (page : List PChar) (input : List PChar)
    (st : ExtractState) (h : goodState input st) :
    goodState (input ++ page) (page.foldl stepChar st) := by
  induction page generalizing input st with
  | nil => simpa using h
  | cons c page ih =>
    rw [List.foldl_cons, ← List.singleton_append, ← List.append_assoc]
    exact ih (input ++ [c]) (stepChar st c) (stepChar_good input st c h)

theorem runPage_good (input : List PChar) (st : ExtractState)
    (page : List PChar) (h : goodState input st) :
    goodState (input ++ page) (runPage st page) := by
  unfold runPage
  refine foldl_stepChar_good page input _ ?_
  exact h

theorem foldl_runPage_good (pages : List (List PChar))
    (input : List PChar) (st : ExtractState) (h : goodState input st) :
    goodState (input ++ pages.flatten) (pages.foldl runPage st) := by
  induction pages generalizing input st with
  | nil => simpa using h
  | cons page pages ih =>
    rw [List.foldl_cons, List.flatten_cons, ← List.append_assoc]
    exact ih (input ++ page) (runPage st page) (runPage_good input st page h)

theorem extract_good (pages : List (List PChar)) :
    goodState pages.flatten (pages.foldl runPage ⟨[], [], "", 0, 0⟩) := by
  have h0 : goodState [] ⟨[], [], "", 0, 0⟩ := by
    refine ⟨rfl, rfl, le_refl _, ?_, ?_⟩
    · intro j hj hj'
      exact absurd (show j < 0 from hj') (Nat.not_lt_zero j)
    · intro k offs hmem
      cases hmem
  have h := foldl_runPage_good pages [] ⟨[], [], "", 0, 0⟩ h0
  simpa using h

/-! Section: claim theorems for C4. -/

/-- Claim C4 is false as stated: in the page
`[bold 'B', plain 'x', bold 'C', space]` the non-bold `'x'` advances the
cursor without flushing the pending bold word, so the key `"bc"` is
recorded at offset `2`, where the full text holds `'C'` — its lowercased
form `'c'` differs from the key's first character `'b'`. -/
theorem c4_counterexample :
    extract_pdf_from_url
        [[⟨'B', true⟩, ⟨'x', false⟩, ⟨'C', true⟩, ⟨' ', false⟩]] =
      ("BxC ".data, [("bc", [2])]) ∧
      "BxC ".data[2]? = some 'C' ∧
      'C'.toLower = 'c' ∧
      "bc".data.head? = some 'b' ∧
      ¬ ('c' = 'b') := by
  refine ⟨by decide, by decide, by decide, by decide, by decide⟩

/-- Claim C4 (amended): every recorded offset of every key lies within
`[0, len(fullText))`; the character at the offset need not agree with the
key's first character (an intervening non-bold character or page boundary
leaves the cursor behind inside the word), but it is always a bold
character outside the whitespace/punctuation break set, and the full text
at the offset is exactly that input character. -/
theorem c4_amended (pages : List (List PChar)) (k : String)
    (offs : List ℕ) (o : ℕ)
    (hk : (k, offs) ∈ (extract_pdf_from_url pages).2) (ho : o ∈ offs) :
    o < (extract_pdf_from_url pages).1.length ∧
      ∃ pc, (pages.flatten)[o]? = some pc ∧ pc.bold = true ∧
        pc.text.isWhitespace = false ∧ isBreakChar pc.text = false ∧
        (extract_pdf_from_url pages).1[o]? = some pc.text := by
  have hg := extract_good pages
  obtain ⟨h1, h2, h3, h4, h5⟩ := hg
  have hk' : (k, offs) ∈ (pages.foldl runPage ⟨[], [], "", 0, 0⟩).bold_words :=
    hk
  have h := h5 k offs hk' o ho
  obtain ⟨hlt, pc, hpc, hb1, hb2, hb3⟩ := h
  constructor
  · show o < (pages.foldl runPage ⟨[], [], "", 0, 0⟩).all_text.length
    rw [← h1]
    exact hlt
  · refine ⟨pc, hpc, hb1, hb2, hb3, ?_⟩
    show (pages.foldl runPage ⟨[], [], "", 0, 0⟩).all_text[o]? = some pc.text
    rw [h2, List.getElem?_map, hpc]
    rfl

theorem c4_witness :
    0 < (extract_pdf_from_url [[⟨'A', true⟩, ⟨' ', false⟩]]).1.length ∧
      ∃ pc, ([[(⟨'A', true⟩ : PChar), ⟨' ', false⟩]].flatten)[0]? = some pc ∧
        pc.bold = true ∧ pc.text.isWhitespace = false ∧
        isBreakChar pc.text = false ∧
        (extract_pdf_from_url [[⟨'A', true⟩, ⟨' ', false⟩]]).1[0]? =
          some pc.text :=
  c4_amended [[⟨'A', true⟩, ⟨' ', false⟩]] "a" [0] 0 (by decide) (by decide)

end AAER
